import Mathlib

set_option maxHeartbeats 1000000

/-!
A shallow embedding of the `memory_addr` crate's `src/addr.rs`.

Machine integers are modelled as `Nat` (for `usize`) and `Int` (for `isize`),
with the native word width an explicit parameter `w`: a valid `usize` value is
a `Nat` strictly below `2 ^ w`, and a valid `isize` value is an `Int` in
`[-2 ^ (w - 1), 2 ^ (w - 1))`.  Panics (`unwrap`, explicit `panic!`) are
modelled by `Option`: `none` is a fault.  Rust's raw `+` and `-` operators
inside the `def_usize_addr!` macro are modelled with release-mode semantics
(overflow checks disabled), i.e. two's-complement wrapping modulo `2 ^ w`.
-/

namespace MemoryAddr

/-- The `PAGE_SIZE_4K` constant of the crate. -/
def PAGE_SIZE_4K : Nat := 4096

namespace Usize

/-- Semantics of `usize::wrapping_add`: addition modulo `2 ^ w`. -/
def wrapping_add (w a b : Nat) : Nat := (a + b) % 2 ^ w

/-- Semantics of `usize::wrapping_sub`: subtraction modulo `2 ^ w`
(computed over `Int` and mapped back to the canonical representative). -/
def wrapping_sub (w a b : Nat) : Nat := (((a : Int) - (b : Int)) % (2 ^ w : Int)).toNat

/-- Semantics of `usize::overflowing_add`: the wrapped sum together with a flag
set exactly when the mathematical sum does not fit in `w` bits. -/
def overflowing_add (w a b : Nat) : Nat × Bool :=
  (wrapping_add w a b, decide (2 ^ w ≤ a + b))

/-- Semantics of `usize::overflowing_sub`: the wrapped difference together with
a flag set exactly when the subtraction borrows. -/
def overflowing_sub (w a b : Nat) : Nat × Bool :=
  (wrapping_sub w a b, decide (a < b))

/-- `usize::checked_add`, implemented as in `core`: take the overflowing sum
and fail when the flag is set. -/
def checked_add (w a b : Nat) : Option Nat :=
  let p := overflowing_add w a b
  if p.2 then none else some p.1

/-- `usize::checked_sub`, implemented as in `core`: take the overflowing
difference and fail when the flag is set. -/
def checked_sub (w a b : Nat) : Option Nat :=
  let p := overflowing_sub w a b
  if p.2 then none else some p.1

/-- The cast `isize as usize`: reinterpret the two's-complement bits, i.e.
reduce modulo `2 ^ w`. -/
def isizeAsUsize (w : Nat) (o : Int) : Nat := (o % (2 ^ w : Int)).toNat

/-- The cast `usize as isize`: reinterpret `w` bits as a signed value. -/
def usizeAsIsize (w a : Nat) : Int :=
  if a < 2 ^ (w - 1) then (a : Int) else (a : Int) - 2 ^ w

/-- `usize::overflowing_add_signed`, implemented as in `core`: add the bit
reinterpretation of the signed operand and flip the overflow flag when the
signed operand is negative. -/
def overflowing_add_signed (w a : Nat) (o : Int) : Nat × Bool :=
  let p := overflowing_add w a (isizeAsUsize w o)
  (p.1, Bool.xor p.2 (decide (o < 0)))

/-- `usize::checked_add_signed`, implemented as in `core`: the overflowing
signed addition, failing when the flag is set. -/
def checked_add_signed (w a : Nat) (o : Int) : Option Nat :=
  let p := overflowing_add_signed w a o
  if p.2 then none else some p.1

/-- `usize::wrapping_add_signed`, implemented as in `core`: the wrapped result
of the overflowing signed addition. -/
def wrapping_add_signed (w a : Nat) (o : Int) : Nat :=
  (overflowing_add_signed w a o).1

end Usize

/-- Modelled from the spec: Rust bitwise complement `!x` on a `w`-bit `usize`
value `x < 2 ^ w`, which equals `(2 ^ w - 1) - x`. (`lib.rs`, which holds the
free alignment functions, is not part of the provided sources.) -/
def not_usize (w x : Nat) : Nat := (2 ^ w - 1) - x

/-- Modelled from the spec: `align_down(addr, align) = addr & !(align - 1)`. -/
def align_down (w addr align : Nat) : Nat := Nat.land addr (not_usize w (align - 1))

/-- Modelled from the spec: `align_up(addr, align) = (addr + align - 1) & !(align - 1)`,
with the intermediate sum wrapping modulo `2 ^ w`. -/
def align_up (w addr align : Nat) : Nat :=
  Nat.land ((addr + align - 1) % 2 ^ w) (not_usize w (align - 1))

/-- Modelled from the spec: `align_offset(addr, align) = addr & (align - 1)`. -/
def align_offset (addr align : Nat) : Nat := Nat.land addr (align - 1)

/-- Modelled from the spec: `is_aligned(addr, align) = align_offset(addr, align) == 0`. -/
def is_aligned (addr align : Nat) : Bool := align_offset addr align == 0

/-- An address type produced by `def_usize_addr!`: a newtype around a single
`usize` field (`self.0`). -/
structure Addr where
  val : Nat
deriving DecidableEq

/-- The generated `const fn from_usize`. -/
def from_usize (addr : Nat) : Addr := ⟨addr⟩

/-- The generated `const fn as_usize`. -/
def Addr.as_usize (a : Addr) : Nat := a.val

/-- The generated `impl From<usize> for $name`. -/
def Addr.fromUsizeImpl (addr : Nat) : Addr := ⟨addr⟩

/-- The generated `impl From<$name> for usize` (i.e. `Into<usize>`). -/
def Addr.intoUsize (a : Addr) : Nat := a.val

/-- The derived `Ord::cmp` of a generated address type: compare the single
`usize` field. -/
def Addr.cmp (a b : Addr) : Ordering := compare a.val b.val

/-- The derived `<` operator (`PartialOrd::lt`): `cmp` yields `Less`. -/
def Addr.lt (a b : Addr) : Bool := Addr.cmp a b == Ordering.lt

/-- The derived `<=` operator (`PartialOrd::le`): `cmp` yields `Less` or `Equal`. -/
def Addr.le (a b : Addr) : Bool :=
  Addr.cmp a b == Ordering.lt || Addr.cmp a b == Ordering.eq

/-- The derived `>` operator (`PartialOrd::gt`): `cmp` yields `Greater`. -/
def Addr.gt (a b : Addr) : Bool := Addr.cmp a b == Ordering.gt

/-- The derived `>=` operator (`PartialOrd::ge`): `cmp` yields `Greater` or `Equal`. -/
def Addr.ge (a b : Addr) : Bool :=
  Addr.cmp a b == Ordering.gt || Addr.cmp a b == Ordering.eq

/-- The derived `==` operator (`PartialEq::eq`): compare the single field. -/
def Addr.beq (a b : Addr) : Bool := a.val == b.val

/-- The derived `!=` operator (`PartialEq::ne`). -/
def Addr.bne (a b : Addr) : Bool := !(Addr.beq a b)

/-- `MemoryAddr::align_down`: delegate to the free `align_down` through the
`usize` conversions. -/
def Addr.align_down (w : Nat) (a : Addr) (align : Nat) : Addr :=
  from_usize (MemoryAddr.align_down w a.val align)

/-- `MemoryAddr::align_up`. -/
def Addr.align_up (w : Nat) (a : Addr) (align : Nat) : Addr :=
  from_usize (MemoryAddr.align_up w a.val align)

/-- `MemoryAddr::align_offset`. -/
def Addr.align_offset (a : Addr) (align : Nat) : Nat :=
  MemoryAddr.align_offset a.val align

/-- `MemoryAddr::is_aligned`. -/
def Addr.is_aligned (a : Addr) (align : Nat) : Bool :=
  MemoryAddr.is_aligned a.val align

/-- `MemoryAddr::offset`: `Self::from(usize::checked_add_signed(self.into(), offset).unwrap())`;
the `unwrap` panic is `none`. -/
def Addr.offset (w : Nat) (a : Addr) (o : Int) : Option Addr :=
  (Usize.checked_add_signed w a.val o).map from_usize

/-- `MemoryAddr::wrapping_offset`: `Self::from(usize::wrapping_add_signed(self.into(), offset))`. -/
def Addr.wrapping_offset (w : Nat) (a : Addr) (o : Int) : Addr :=
  from_usize (Usize.wrapping_add_signed w a.val o)

/-- `MemoryAddr::offset_from`: wrapping subtraction reinterpreted as `isize`,
panicking (`none`) when `(result > 0) ^ (base < self)`. -/
def Addr.offset_from (w : Nat) (a base : Addr) : Option Int :=
  let result := Usize.usizeAsIsize w (Usize.wrapping_sub w a.val base.val)
  if Bool.xor (decide (0 < result)) (Addr.lt base a) then none else some result

/-- `MemoryAddr::add`: `Self::from(usize::checked_add(self.into(), rhs).unwrap())`. -/
def Addr.add (w : Nat) (a : Addr) (rhs : Nat) : Option Addr :=
  (Usize.checked_add w a.val rhs).map from_usize

/-- `MemoryAddr::wrapping_add`. -/
def Addr.wrapping_add (w : Nat) (a : Addr) (rhs : Nat) : Addr :=
  from_usize (Usize.wrapping_add w a.val rhs)

/-- `MemoryAddr::overflowing_add`: the pair of the wrapped address and the flag. -/
def Addr.overflowing_add (w : Nat) (a : Addr) (rhs : Nat) : Addr × Bool :=
  let p := Usize.overflowing_add w a.val rhs
  (from_usize p.1, p.2)

/-- `MemoryAddr::sub`: `Self::from(usize::checked_sub(self.into(), rhs).unwrap())`. -/
def Addr.sub (w : Nat) (a : Addr) (rhs : Nat) : Option Addr :=
  (Usize.checked_sub w a.val rhs).map from_usize

/-- `MemoryAddr::wrapping_sub`. -/
def Addr.wrapping_sub (w : Nat) (a : Addr) (rhs : Nat) : Addr :=
  from_usize (Usize.wrapping_sub w a.val rhs)

/-- `MemoryAddr::overflowing_sub`: the pair of the wrapped address and the flag. -/
def Addr.overflowing_sub (w : Nat) (a : Addr) (rhs : Nat) : Addr × Bool :=
  let p := Usize.overflowing_sub w a.val rhs
  (from_usize p.1, p.2)

/-- The generated `impl Add<usize>`: `Self(self.0 + rhs)`, with Rust's raw `+`
in release mode wrapping modulo `2 ^ w`. -/
def Addr.opAdd (w : Nat) (a : Addr) (rhs : Nat) : Addr :=
  from_usize ((a.val + rhs) % 2 ^ w)

/-- The generated `impl Sub<usize>`: `Self(self.0 - rhs)`, with Rust's raw `-`
in release mode wrapping modulo `2 ^ w`. -/
def Addr.opSub (w : Nat) (a : Addr) (rhs : Nat) : Addr :=
  from_usize (Usize.wrapping_sub w a.val rhs)

/-- The generated `impl Sub<$name> for $name`: `self.0 - rhs.0`, yielding a
`usize`, with Rust's raw `-` in release mode wrapping modulo `2 ^ w`. -/
def Addr.opSubAddr (w : Nat) (a b : Addr) : Nat :=
  Usize.wrapping_sub w a.val b.val

/-! ## Helper lemmas -/

/-- The derived `<` agrees with `<` on the underlying integer. -/
theorem Addr.lt_iff (a b : Addr) : Addr.lt a b = true ↔ a.val < b.val := by
  rw [← Nat.compare_eq_lt]
  unfold Addr.lt Addr.cmp
  cases compare a.val b.val <;> simp <;> rfl

/-- `wrapping_sub` cast to `Int` is the Euclidean remainder of the true
difference. -/
theorem wrapping_sub_int (w a b : Nat) :
    ((Usize.wrapping_sub w a b : Nat) : Int) = ((a : Int) - b) % (2 ^ w : Int) := by
  have hpos : (0 : Int) < 2 ^ w := by positivity
  exact Int.toNat_of_nonneg (Int.emod_nonneg _ (ne_of_gt hpos))

/-- Euclidean remainder of a value already in range. -/
theorem emod_two_pow_self {w : Nat} {d : Int} (h0 : 0 ≤ d) (h1 : d < 2 ^ w) :
    d % (2 ^ w : Int) = d :=
  Int.emod_eq_of_lt h0 h1

/-- Euclidean remainder of a negative value one period below range. -/
theorem emod_two_pow_neg {w : Nat} {d : Int} (h0 : d < 0) (h1 : -(2 ^ w) ≤ d) :
    d % (2 ^ w : Int) = d + 2 ^ w := by
  have h2 : (d + 2 ^ w * 1) % (2 ^ w : Int) = d % 2 ^ w :=
    Int.add_mul_emod_self_left d (2 ^ w) 1
  have h3 : d + 2 ^ w * 1 = d + 2 ^ w := by ring
  rw [h3] at h2
  rw [← h2]
  exact Int.emod_eq_of_lt (by omega) (by omega)


/-- The derived `<=` agrees with `≤` on the underlying integer. -/
theorem Addr.le_iff (a b : Addr) : Addr.le a b = true ↔ a.val ≤ b.val := by
  unfold Addr.le Addr.cmp
  rcases Nat.lt_trichotomy a.val b.val with h | h | h
  · rw [Nat.compare_eq_lt.mpr h]
    exact iff_of_true (by decide) (by omega)
  · rw [Nat.compare_eq_eq.mpr h]
    exact iff_of_true (by decide) (by omega)
  · rw [Nat.compare_eq_gt.mpr h]
    exact iff_of_false (by decide) (by omega)

/-- The derived `>` agrees with `>` on the underlying integer. -/
theorem Addr.gt_iff (a b : Addr) : Addr.gt a b = true ↔ b.val < a.val := by
  unfold Addr.gt Addr.cmp
  rcases Nat.lt_trichotomy a.val b.val with h | h | h
  · rw [Nat.compare_eq_lt.mpr h]
    exact iff_of_false (by decide) (by omega)
  · rw [Nat.compare_eq_eq.mpr h]
    exact iff_of_false (by decide) (by omega)
  · rw [Nat.compare_eq_gt.mpr h]
    exact iff_of_true (by decide) (by omega)

/-- The derived `>=` agrees with `≥` on the underlying integer. -/
theorem Addr.ge_iff (a b : Addr) : Addr.ge a b = true ↔ b.val ≤ a.val := by
  unfold Addr.ge Addr.cmp
  rcases Nat.lt_trichotomy a.val b.val with h | h | h
  · rw [Nat.compare_eq_lt.mpr h]
    exact iff_of_false (by decide) (by omega)
  · rw [Nat.compare_eq_eq.mpr h]
    exact iff_of_true (by decide) (by omega)
  · rw [Nat.compare_eq_gt.mpr h]
    exact iff_of_true (by decide) (by omega)

/-- The derived `==` agrees with `=` on the underlying integer. -/
theorem Addr.beq_iff (a b : Addr) : Addr.beq a b = true ↔ a.val = b.val := by
  simp [Addr.beq]

/-- The derived `!=` agrees with `≠` on the underlying integer. -/
theorem Addr.bne_iff (a b : Addr) : Addr.bne a b = true ↔ a.val ≠ b.val := by
  simp [Addr.bne, Addr.beq]

/-- Casting `2 ^ w` from `Nat` to `Int` commutes. -/
theorem two_pow_cast (w : Nat) : ((2 ^ w : Nat) : Int) = (2 ^ w : Int) := by
  push_cast
  ring

/-- `2 ^ w` is positive over `Int`. -/
theorem two_pow_pos_int (w : Nat) : (0 : Int) < 2 ^ w := by positivity

/-- `2 ^ w` is positive over `Nat`. -/
theorem two_pow_pos_nat (w : Nat) : (0 : Nat) < 2 ^ w := by positivity

/-! ## Claims -/

/-- Claim C8: converting a `usize` to a generated address type and back returns
the original integer, both through the `const fn` pair `from_usize`/`as_usize`
and through the `From`/`Into` trait implementations. -/
theorem claim_usize_roundtrip (v : Nat) :
    (from_usize v).as_usize = v ∧ Addr.intoUsize (Addr.fromUsizeImpl v) = v :=
  ⟨rfl, rfl⟩

/-- Claim C9: each derived comparison operator of a generated address type
agrees exactly with the corresponding comparison of the underlying integers. -/
theorem claim_comparison_agrees (a b : Addr) :
    (Addr.lt a b = true ↔ a.as_usize < b.as_usize) ∧
    (Addr.le a b = true ↔ a.as_usize ≤ b.as_usize) ∧
    (Addr.gt a b = true ↔ b.as_usize < a.as_usize) ∧
    (Addr.ge a b = true ↔ b.as_usize ≤ a.as_usize) ∧
    (Addr.beq a b = true ↔ a.as_usize = b.as_usize) ∧
    (Addr.bne a b = true ↔ a.as_usize ≠ b.as_usize) :=
  ⟨Addr.lt_iff a b, Addr.le_iff a b, Addr.gt_iff a b, Addr.ge_iff a b,
   Addr.beq_iff a b, Addr.bne_iff a b⟩

/-- Claim C5: `wrapping_add` and `wrapping_sub` are total and compute the
sum/difference modulo `2 ^ w`; the maximal address plus one wraps to zero and
zero minus one wraps to the maximal address. -/
theorem claim_wrapping_add_sub (w : Nat) (a : Addr) (d : Nat) :
    (Addr.wrapping_add w a d).val = (a.val + d) % 2 ^ w ∧
    ((Addr.wrapping_sub w a d).val : Int) = ((a.val : Int) - d) % (2 ^ w : Int) ∧
    Addr.wrapping_add w (from_usize (2 ^ w - 1)) 1 = from_usize 0 ∧
    Addr.wrapping_sub w (from_usize 0) 1 = from_usize (2 ^ w - 1) := by
  refine ⟨rfl, wrapping_sub_int w a.val d, ?_, ?_⟩
  · unfold Addr.wrapping_add Usize.wrapping_add from_usize
    have h : 2 ^ w - 1 + 1 = 2 ^ w := Nat.succ_pred_eq_of_pos (two_pow_pos_nat w)
    rw [Addr.mk.injEq, h, Nat.mod_self]
  · unfold Addr.wrapping_sub Usize.wrapping_sub from_usize
    have hp := two_pow_pos_int w
    have hc := two_pow_cast w
    have h1 : (((0 : Nat) : Int)) - (((1 : Nat) : Int)) = -1 := by norm_num
    rw [Addr.mk.injEq, h1, emod_two_pow_neg (by omega) (by omega)]
    omega

/-- Claim C6: `overflowing_add` and `overflowing_sub` are total, their first
component equals the corresponding wrapping operation, and their flag is set
exactly when the true sum/difference lies outside the unsigned word range. -/
theorem claim_overflowing_add_sub (w : Nat) (a : Addr) (d : Nat) :
    (Addr.overflowing_add w a d).1 = Addr.wrapping_add w a d ∧
    ((Addr.overflowing_add w a d).2 = true ↔ 2 ^ w ≤ a.val + d) ∧
    (Addr.overflowing_sub w a d).1 = Addr.wrapping_sub w a d ∧
    ((Addr.overflowing_sub w a d).2 = true ↔ (a.val : Int) - d < 0) := by
  refine ⟨rfl, ?_, rfl, ?_⟩
  · simp [Addr.overflowing_add, Usize.overflowing_add]
  · simp only [Addr.overflowing_sub, Usize.overflowing_sub, decide_eq_true_eq]
    omega

/-- `wrapping_sub` of an in-range value by a smaller one is plain subtraction. -/
theorem wrapping_sub_of_le (w a b : Nat) (ha : a < 2 ^ w) (h : b ≤ a) :
    Usize.wrapping_sub w a b = a - b := by
  unfold Usize.wrapping_sub
  have hc := two_pow_cast w
  rw [emod_two_pow_self (by omega) (by omega)]
  omega

/-- Characterization of `usize::checked_add`: succeeds with the true sum
exactly when it fits in `w` bits. -/
theorem checked_add_eq (w a b : Nat) :
    Usize.checked_add w a b = if a + b < 2 ^ w then some (a + b) else none := by
  unfold Usize.checked_add Usize.overflowing_add Usize.wrapping_add
  rcases Nat.lt_or_ge (a + b) (2 ^ w) with h | h
  · have hd : decide (2 ^ w ≤ a + b) = false := by simp [Nat.not_le.mpr h]
    simp [hd, if_pos h, Nat.mod_eq_of_lt h]
  · have hd : decide (2 ^ w ≤ a + b) = true := by simp [h]
    simp [hd, if_neg (Nat.not_lt.mpr h)]

/-- Characterization of `usize::checked_sub`: succeeds with the true difference
exactly when no borrow occurs. -/
theorem checked_sub_eq (w a b : Nat) (ha : a < 2 ^ w) :
    Usize.checked_sub w a b = if b ≤ a then some (a - b) else none := by
  unfold Usize.checked_sub Usize.overflowing_sub
  rcases Nat.lt_or_ge a b with h | h
  · have hd : decide (a < b) = true := by simp [h]
    simp [hd, if_neg (Nat.not_le.mpr h)]
  · have hd : decide (a < b) = false := by simp [Nat.not_lt.mpr h]
    simp [hd, if_pos h, wrapping_sub_of_le w a b ha h]

/-- Claim C4: `add` and `sub` of an unsigned offset return the exact sum and
difference, fault (`none`) exactly when the true result leaves the unsigned
word range, the maximal address plus one and address zero minus one both
fault, and under no overflow `add` then `sub` round-trips. -/
theorem claim_add_sub_checked (w : Nat) (a : Addr) (d : Nat) (ha : a.val < 2 ^ w) :
    Addr.add w a d = (if a.val + d < 2 ^ w then some (from_usize (a.val + d)) else none) ∧
    Addr.sub w a d = (if d ≤ a.val then some (from_usize (a.val - d)) else none) ∧
    (a.val + d < 2 ^ w →
      Addr.add w a d = some (from_usize (a.val + d)) ∧
      Addr.sub w (from_usize (a.val + d)) d = some a) ∧
    Addr.add w (from_usize (2 ^ w - 1)) 1 = none ∧
    Addr.sub w (from_usize 0) 1 = none := by
  have hadd : Addr.add w a d
      = (if a.val + d < 2 ^ w then some (from_usize (a.val + d)) else none) := by
    unfold Addr.add
    rw [checked_add_eq]
    rcases Nat.lt_or_ge (a.val + d) (2 ^ w) with h | h
    · rw [if_pos h, if_pos h]; rfl
    · rw [if_neg (Nat.not_lt.mpr h), if_neg (Nat.not_lt.mpr h)]; rfl
  have hsub : Addr.sub w a d
      = (if d ≤ a.val then some (from_usize (a.val - d)) else none) := by
    unfold Addr.sub
    rw [checked_sub_eq w a.val d ha]
    rcases le_or_lt d a.val with h | h
    · rw [if_pos h, if_pos h]; rfl
    · rw [if_neg (Nat.not_le.mpr h), if_neg (Nat.not_le.mpr h)]; rfl
  refine ⟨hadd, hsub, ?_, ?_, ?_⟩
  · intro h
    constructor
    · rw [hadd, if_pos h]
    · unfold Addr.sub
      rw [checked_sub_eq w (from_usize (a.val + d)).val d h]
      have h2 : d ≤ (from_usize (a.val + d)).val := by
        show d ≤ a.val + d
        omega
      rw [if_pos h2]
      have h3 : (from_usize (a.val + d)).val - d = a.val := by
        show a.val + d - d = a.val
        omega
      rw [h3]
      rfl
  · unfold Addr.add
    rw [checked_add_eq]
    have h := two_pow_pos_nat w
    rw [if_neg (show ¬((from_usize (2 ^ w - 1)).val + 1 < 2 ^ w) from by
      show ¬(2 ^ w - 1 + 1 < 2 ^ w)
      omega)]
    rfl
  · unfold Addr.sub
    rw [checked_sub_eq w (from_usize 0).val 1 (two_pow_pos_nat w)]
    rw [if_neg (show ¬((1:Nat) ≤ (from_usize 0).val) from by decide)]
    rfl

/-- Claim C10: where they do not overflow, the raw `+`/`-` operators generated
by `def_usize_addr!` agree with the checked `add`/`sub` methods. -/
theorem claim_operator_method_agree (w : Nat) (a : Addr) (n : Nat) (ha : a.val < 2 ^ w) :
    (a.val + n < 2 ^ w → Addr.add w a n = some (Addr.opAdd w a n)) ∧
    (n ≤ a.val → Addr.sub w a n = some (Addr.opSub w a n)) := by
  constructor
  · intro h
    unfold Addr.add Addr.opAdd
    rw [checked_add_eq, if_pos h, Nat.mod_eq_of_lt h]
    rfl
  · intro h
    unfold Addr.sub Addr.opSub
    rw [checked_sub_eq w a.val n ha, if_pos h, wrapping_sub_of_le w a.val n ha h]
    rfl

/-- Claim C2: the `-` operator between two addresses of the same generated type
yields the unsigned distance of the underlying integers, and silently wraps
(adding `2 ^ w`) when the left operand is smaller. -/
theorem claim_sub_addr (w : Nat) (a b : Addr) (ha : a.val < 2 ^ w) (hb : b.val < 2 ^ w) :
    (b.val ≤ a.val → Addr.opSubAddr w a b = a.val - b.val) ∧
    (a.val < b.val →
      ((Addr.opSubAddr w a b : Nat) : Int) = (a.val : Int) - b.val + 2 ^ w) := by
  constructor
  · intro h
    exact wrapping_sub_of_le w a.val b.val ha h
  · intro h
    unfold Addr.opSubAddr Usize.wrapping_sub
    have hc := two_pow_cast w
    have hp := two_pow_pos_int w
    rw [Int.toNat_of_nonneg (Int.emod_nonneg _ (ne_of_gt hp))]
    rw [emod_two_pow_neg (by omega) (by omega)]

/-- Concrete instance of C4 at `w = 4`, `a = 3`, `d = 2`. -/
theorem claim_add_sub_checked_witness :
    (from_usize 3).val < 2 ^ 4 ∧
    Addr.add 4 (from_usize 3) 2 = some (from_usize 5) ∧
    Addr.add 4 (from_usize 15) 1 = none ∧
    Addr.sub 4 (from_usize 0) 1 = none := by
  have h := claim_add_sub_checked 4 (from_usize 3) 2 (by decide)
  refine ⟨by decide, ?_, ?_, ?_⟩
  · rw [h.1]; decide
  · exact h.2.2.2.1
  · exact h.2.2.2.2

/-- Concrete instance of C10 at `w = 4`, `a = 9`, `n = 5`. -/
theorem claim_operator_method_agree_witness :
    (from_usize 9).val < 2 ^ 4 ∧
    Addr.add 4 (from_usize 9) 5 = some (Addr.opAdd 4 (from_usize 9) 5) ∧
    Addr.sub 4 (from_usize 9) 5 = some (Addr.opSub 4 (from_usize 9) 5) := by
  have h := claim_operator_method_agree 4 (from_usize 9) 5 (by decide)
  exact ⟨by decide, h.1 (by decide), h.2 (by decide)⟩

/-- Concrete instance of C2 at `w = 4`: `12 - 3 = 9` and `3 - 12` wraps to `7`. -/
theorem claim_sub_addr_witness :
    (from_usize 12).val < 2 ^ 4 ∧ (from_usize 3).val < 2 ^ 4 ∧
    Addr.opSubAddr 4 (from_usize 12) (from_usize 3) = 9 ∧
    ((Addr.opSubAddr 4 (from_usize 3) (from_usize 12) : Nat) : Int)
      = ((from_usize 3).val : Int) - (from_usize 12).val + 2 ^ 4 := by
  have h1 := claim_sub_addr 4 (from_usize 12) (from_usize 3) (by decide) (by decide)
  have h2 := claim_sub_addr 4 (from_usize 3) (from_usize 12) (by decide) (by decide)
  exact ⟨by decide, by decide, h1.1 (by decide), h2.2 (by decide)⟩

/-- The `val` field of `from_usize`. -/
theorem from_usize_val (v : Nat) : (from_usize v).val = v := rfl

/-- Splitting `2 ^ w` for positive `w`, over `Int`. -/
theorem two_pow_split_int (w : Nat) (hw : 0 < w) :
    (2 ^ w : Int) = 2 ^ (w - 1) + 2 ^ (w - 1) := by
  have h : w = w - 1 + 1 := by omega
  conv_lhs => rw [h]
  rw [pow_succ]
  ring

/-- The wrapped value of signed addition is the true sum modulo `2 ^ w`. -/
theorem wrapping_add_signed_eq (w : Nat) (a : Nat) (o : Int) :
    ((Usize.wrapping_add_signed w a o : Nat) : Int) = ((a : Int) + o) % (2 ^ w : Int) := by
  simp only [Usize.wrapping_add_signed, Usize.overflowing_add_signed, Usize.overflowing_add,
    Usize.wrapping_add, Usize.isizeAsUsize]
  have hp := two_pow_pos_int w
  have hb : ((o % (2 ^ w : Int)).toNat : Int) = o % 2 ^ w :=
    Int.toNat_of_nonneg (Int.emod_nonneg _ (ne_of_gt hp))
  have hc := two_pow_cast w
  rw [← Int.ofNat_mod_ofNat]
  push_cast
  rw [hb, Int.add_emod ((a : Int)) (o % 2 ^ w), Int.emod_emod_of_dvd o dvd_rfl,
    ← Int.add_emod]

/-- The overflow flag of signed addition is set exactly when the true sum
leaves the unsigned word range. -/
theorem overflowing_add_signed_flag (w : Nat) (hw : 0 < w) (a : Nat) (o : Int)
    (ha : a < 2 ^ w) (ho1 : -(2 ^ (w - 1)) ≤ o) (ho2 : o < 2 ^ (w - 1)) :
    (Usize.overflowing_add_signed w a o).2
      = decide ((a : Int) + o < 0 ∨ (2 ^ w : Int) ≤ (a : Int) + o) := by
  simp only [Usize.overflowing_add_signed, Usize.overflowing_add, Usize.wrapping_add,
    Usize.isizeAsUsize]
  have hp := two_pow_pos_int w
  have hs := two_pow_split_int w hw
  have hc := two_pow_cast w
  rcases le_or_lt 0 o with h | h
  · have he : o % (2 ^ w : Int) = o := emod_two_pow_self h (by omega)
    have hno : decide (o < 0) = false := by simp [Int.not_lt.mpr h]
    simp only [he, hno, Bool.xor_false]
    rw [decide_eq_decide]
    omega
  · have he : o % (2 ^ w : Int) = o + 2 ^ w := emod_two_pow_neg h (by omega)
    have hyes : decide (o < 0) = true := by simp [h]
    simp only [he, hyes, Bool.xor_true]
    rw [← decide_not, decide_eq_decide]
    omega

/-- Claim C3: `offset` adds a signed displacement, returning the exact sum when
it is representable as a `usize` and faulting (`none`) exactly otherwise; the
maximal address offset by `1` faults; `wrapping_offset` is total and computes
the sum modulo `2 ^ w`. -/
theorem claim_offset_signed (w : Nat) (hw : 1 < w) (a : Addr) (o : Int)
    (ha : a.val < 2 ^ w) (ho1 : -(2 ^ (w - 1)) ≤ o) (ho2 : o < 2 ^ (w - 1)) :
    Addr.offset w a o =
      (if 0 ≤ (a.val : Int) + o ∧ (a.val : Int) + o < 2 ^ w
       then some (from_usize ((a.val : Int) + o).toNat) else none) ∧
    ((Addr.wrapping_offset w a o).val : Int) = ((a.val : Int) + o) % (2 ^ w : Int) ∧
    Addr.offset w (from_usize (2 ^ w - 1)) 1 = none := by
  have hp := two_pow_pos_int w
  have hc := two_pow_cast w
  have hval := wrapping_add_signed_eq w a.val o
  have hflag := overflowing_add_signed_flag w (by omega) a.val o ha ho1 ho2
  refine ⟨?_, hval, ?_⟩
  · simp only [Addr.offset, Usize.checked_add_signed]
    by_cases hcond : 0 ≤ (a.val : Int) + o ∧ (a.val : Int) + o < 2 ^ w
    · have hb : (Usize.overflowing_add_signed w a.val o).2 = false := by
        rw [hflag]
        simp only [decide_eq_false_iff_not]
        omega
      rw [hb, if_neg Bool.false_ne_true, if_pos hcond]
      have hval2 : (Usize.overflowing_add_signed w a.val o).1 = ((a.val : Int) + o).toNat := by
        have h3 : ((Usize.overflowing_add_signed w a.val o).1 : Int) = (a.val : Int) + o := by
          rw [show (Usize.overflowing_add_signed w a.val o).1
                = Usize.wrapping_add_signed w a.val o from rfl, hval]
          exact emod_two_pow_self hcond.1 hcond.2
        omega
      rw [hval2]
      rfl
    · have hb : (Usize.overflowing_add_signed w a.val o).2 = true := by
        rw [hflag]
        simp only [decide_eq_true_eq]
        omega
      rw [hb, if_pos rfl, if_neg hcond]
      rfl
  · have hs1 := two_pow_split_int (w - 1) (by omega)
    have hp2 := two_pow_pos_int (w - 1 - 1)
    have hflag2 := overflowing_add_signed_flag w (by omega) (from_usize (2 ^ w - 1)).val 1
      (by rw [from_usize_val]; have := two_pow_pos_nat w; omega)
      (by have := two_pow_pos_int (w - 1); omega)
      (by omega)
    simp only [Addr.offset, Usize.checked_add_signed]
    have hb2 : (Usize.overflowing_add_signed w (from_usize (2 ^ w - 1)).val 1).2 = true := by
      rw [hflag2]
      simp only [decide_eq_true_eq, from_usize_val]
      have := two_pow_pos_nat w
      omega
    rw [hb2, if_pos rfl]
    rfl

/-- Concrete instance of C3 at `w = 4`, `a = 10`, `o = -3`. -/
theorem claim_offset_signed_witness :
    (1 : Nat) < 4 ∧ (from_usize 10).val < 2 ^ 4 ∧
    (-(2 ^ (4 - 1) : Int)) ≤ -3 ∧ ((-3 : Int) < 2 ^ (4 - 1)) ∧
    Addr.offset 4 (from_usize 10) (-3) = some (from_usize 7) ∧
    ((Addr.wrapping_offset 4 (from_usize 10) (-3)).val : Int) = 7 ∧
    Addr.offset 4 (from_usize (2 ^ 4 - 1)) 1 = none := by
  have h := claim_offset_signed 4 (by decide) (from_usize 10) (-3)
    (by decide) (by decide) (by decide)
  refine ⟨by decide, by decide, by decide, by decide, ?_, ?_, h.2.2⟩
  · rw [h.1]; decide
  · rw [h.2.1]; decide

/-- The derived `<` as a `decide`. -/
theorem Addr.lt_eq_decide (a b : Addr) : Addr.lt a b = decide (a.val < b.val) := by
  rw [Bool.eq_iff_iff, Addr.lt_iff]
  simp

/-- Characterization of `offset_from`: the signed distance when representable
as an `isize`, a fault otherwise. -/
theorem offset_from_eq (w : Nat) (hw : 0 < w) (a b : Addr)
    (ha : a.val < 2 ^ w) (hb : b.val < 2 ^ w) :
    Addr.offset_from w a b =
      (if -(2 ^ (w - 1) : Int) ≤ (a.val : Int) - b.val ∧ (a.val : Int) - b.val < 2 ^ (w - 1)
       then some ((a.val : Int) - b.val) else none) := by
  have hp := two_pow_pos_int w
  have hc := two_pow_cast w
  have hcw := two_pow_cast (w - 1)
  have hs := two_pow_split_int w hw
  have hwd := wrapping_sub_int w a.val b.val
  have hn1 := two_pow_pos_nat (w - 1)
  simp only [Addr.offset_from, Addr.lt_eq_decide, Usize.usizeAsIsize]
  set d : Int := (a.val : Int) - b.val with hdd
  set wd : Nat := Usize.wrapping_sub w a.val b.val with hwddef
  have h1 : (wd : Int) < 2 ^ w := by rw [hwd]; exact Int.emod_lt_of_pos _ hp
  rcases le_or_lt 0 d with hcase | hcase
  · have hwdval : (wd : Int) = d := by rw [hwd]; exact emod_two_pow_self hcase (by omega)
    by_cases hsub : wd < 2 ^ (w - 1)
    · have hite : (if wd < 2 ^ (w - 1) then (wd : Int) else (wd : Int) - 2 ^ w) = (wd : Int) :=
        if_pos hsub
      simp only [hite]
      have he : decide ((0 : Int) < (wd : Int)) = decide (b.val < a.val) := by
        rw [decide_eq_decide]
        omega
      rw [he, Bool.xor_self, if_neg Bool.false_ne_true, if_pos (by constructor <;> omega)]
      rw [hwdval]
    · have hite : (if wd < 2 ^ (w - 1) then (wd : Int) else (wd : Int) - 2 ^ w)
          = (wd : Int) - 2 ^ w := if_neg hsub
      simp only [hite]
      have he1 : decide ((0 : Int) < (wd : Int) - 2 ^ w) = false := by
        simp only [decide_eq_false_iff_not]
        omega
      have he2 : decide (b.val < a.val) = true := by
        simp only [decide_eq_true_eq]
        omega
      rw [he1, he2, if_pos (show (false ^^ true) = true from rfl), if_neg (by omega)]
  · have hwdval : (wd : Int) = d + 2 ^ w := by
      rw [hwd]; exact emod_two_pow_neg hcase (by omega)
    by_cases hsub : wd < 2 ^ (w - 1)
    · have hite : (if wd < 2 ^ (w - 1) then (wd : Int) else (wd : Int) - 2 ^ w) = (wd : Int) :=
        if_pos hsub
      simp only [hite]
      have he1 : decide ((0 : Int) < (wd : Int)) = true := by
        simp only [decide_eq_true_eq]
        omega
      have he2 : decide (b.val < a.val) = false := by
        simp only [decide_eq_false_iff_not]
        omega
      rw [he1, he2, if_pos (show (true ^^ false) = true from rfl), if_neg (by omega)]
    · have hite : (if wd < 2 ^ (w - 1) then (wd : Int) else (wd : Int) - 2 ^ w)
          = (wd : Int) - 2 ^ w := if_neg hsub
      simp only [hite]
      have he1 : decide ((0 : Int) < (wd : Int) - 2 ^ w) = false := by
        simp only [decide_eq_false_iff_not]
        omega
      have he2 : decide (b.val < a.val) = false := by
        simp only [decide_eq_false_iff_not]
        omega
      rw [he1, he2]
      rw [if_neg (show ¬((false ^^ false) = true) from by decide),
        if_pos (by constructor <;> omega)]
      have hfin : (wd : Int) - 2 ^ w = d := by omega
      rw [hfin]

/-- Claim C1: `offset_from` returns the signed distance `self - base` exactly
when it is representable as an `isize` and faults (`none`) exactly otherwise;
in particular the zero and maximal addresses fault in both directions. -/
theorem claim_offset_from (w : Nat) (hw : 1 < w) (a b : Addr)
    (ha : a.val < 2 ^ w) (hb : b.val < 2 ^ w) :
    Addr.offset_from w a b =
      (if -(2 ^ (w - 1) : Int) ≤ (a.val : Int) - b.val ∧ (a.val : Int) - b.val < 2 ^ (w - 1)
       then some ((a.val : Int) - b.val) else none) ∧
    Addr.offset_from w (from_usize 0) (from_usize (2 ^ w - 1)) = none ∧
    Addr.offset_from w (from_usize (2 ^ w - 1)) (from_usize 0) = none := by
  have hp := two_pow_pos_int w
  have hc := two_pow_cast w
  have hcw := two_pow_cast (w - 1)
  have hs := two_pow_split_int w (by omega)
  have hs1 := two_pow_split_int (w - 1) (by omega)
  have hp2 := two_pow_pos_int (w - 1 - 1)
  have hn := two_pow_pos_nat w
  have hmax : (from_usize (2 ^ w - 1)).val < 2 ^ w := by rw [from_usize_val]; omega
  have hzero : (from_usize 0).val < 2 ^ w := by rw [from_usize_val]; omega
  refine ⟨offset_from_eq w (by omega) a b ha hb, ?_, ?_⟩
  · rw [offset_from_eq w (by omega) (from_usize 0) (from_usize (2 ^ w - 1)) hzero hmax]
    rw [if_neg]
    simp only [from_usize_val]
    push_cast
    omega
  · rw [offset_from_eq w (by omega) (from_usize (2 ^ w - 1)) (from_usize 0) hmax hzero]
    rw [if_neg]
    simp only [from_usize_val]
    push_cast
    omega

/-- Concrete instance of C1 at `w = 4`: `9 - 2 = 7` is representable, and the
extreme addresses fault. -/
theorem claim_offset_from_witness :
    (1 : Nat) < 4 ∧ (from_usize 9).val < 2 ^ 4 ∧ (from_usize 2).val < 2 ^ 4 ∧
    Addr.offset_from 4 (from_usize 9) (from_usize 2) = some 7 ∧
    Addr.offset_from 4 (from_usize 0) (from_usize (2 ^ 4 - 1)) = none ∧
    Addr.offset_from 4 (from_usize (2 ^ 4 - 1)) (from_usize 0) = none := by
  have h := claim_offset_from 4 (by decide) (from_usize 9) (from_usize 2) (by decide) (by decide)
  refine ⟨by decide, by decide, by decide, ?_, h.2.1, h.2.2⟩
  rw [h.1]
  decide

/-- Masking with `2 ^ m - 1` is reduction modulo `2 ^ m`. -/
theorem land_two_pow_sub_one (a m : Nat) : Nat.land a (2 ^ m - 1) = a % 2 ^ m := by
  apply Nat.eq_of_testBit_eq
  intro i
  show Nat.testBit (a &&& (2 ^ m - 1)) i = Nat.testBit (a % 2 ^ m) i
  rw [Nat.testBit_land, Nat.testBit_two_pow_sub_one, Nat.testBit_mod_two_pow,
    Bool.and_comm]

/-- Masking an in-range value with the complement of `2 ^ m - 1` clears the
low `m` bits, i.e. subtracts the remainder modulo `2 ^ m`. -/
theorem land_not_mask (w m a : Nat) (ha : a < 2 ^ w) (hm : m ≤ w) :
    Nat.land a (not_usize w (2 ^ m - 1)) = a - a % 2 ^ m := by
  have hmask : not_usize w (2 ^ m - 1) = (2 ^ (w - m) - 1) <<< m := by
    unfold not_usize
    rw [Nat.shiftLeft_eq, Nat.sub_mul, one_mul]
    rw [show 2 ^ (w - m) * 2 ^ m = 2 ^ w from by rw [← pow_add]; congr 1; omega]
    have h2 := two_pow_pos_nat m
    have h4 : 2 ^ m ≤ 2 ^ w := Nat.pow_le_pow_right (by norm_num) hm
    omega
  have hr : a - a % 2 ^ m = a >>> m <<< m := by
    rw [Nat.shiftLeft_eq, Nat.shiftRight_eq_div_pow, Nat.mod_def,
      Nat.mul_comm (2 ^ m) (a / 2 ^ m)]
    have h := Nat.div_mul_le_self a (2 ^ m)
    omega
  rw [hmask, hr]
  apply Nat.eq_of_testBit_eq
  intro i
  show Nat.testBit (a &&& (2 ^ (w - m) - 1) <<< m) i = Nat.testBit (a >>> m <<< m) i
  rw [Nat.testBit_land, Nat.testBit_shiftLeft, Nat.testBit_shiftLeft,
    Nat.testBit_shiftRight, Nat.testBit_two_pow_sub_one]
  by_cases him : m ≤ i
  · have hdm : decide (i ≥ m) = true := by simp [him]
    rw [hdm, show m + (i - m) = i from by omega]
    by_cases hiw : i < w
    · have hdw : decide (i - m < w - m) = true := by
        simp only [decide_eq_true_eq]
        omega
      rw [hdw]
      simp [Bool.and_comm]
    · have hbit : a.testBit i = false := by
        apply Nat.testBit_lt_two_pow
        calc a < 2 ^ w := ha
          _ ≤ 2 ^ i := Nat.pow_le_pow_right (by norm_num) (by omega)
      have hdw : decide (i - m < w - m) = false := by
        simp only [decide_eq_false_iff_not]
        omega
      rw [hbit, hdw]
      simp
  · have hdm : decide (i ≥ m) = false := by simp [him]
    rw [hdm]
    simp

/-- Claim C7: for a power-of-two alignment, `align_offset` equals the distance
from the address to its `align_down`, and `is_aligned` holds exactly when
`align_offset` is zero. -/
theorem claim_align_offset_law (w m : Nat) (a : Addr) (ha : a.val < 2 ^ w) (hm : m < w) :
    Addr.align_offset a (2 ^ m) = a.as_usize - (Addr.align_down w a (2 ^ m)).as_usize ∧
    (Addr.is_aligned a (2 ^ m) = true ↔ Addr.align_offset a (2 ^ m) = 0) := by
  constructor
  · show MemoryAddr.align_offset a.val (2 ^ m)
        = a.val - MemoryAddr.align_down w a.val (2 ^ m)
    unfold MemoryAddr.align_offset MemoryAddr.align_down
    rw [land_two_pow_sub_one, land_not_mask w m a.val ha (by omega)]
    have h := Nat.mod_le a.val (2 ^ m)
    omega
  · show MemoryAddr.is_aligned a.val (2 ^ m) = true ↔ _
    simp [MemoryAddr.is_aligned, Addr.align_offset]

/-- Concrete instance of C7 at `w = 4`, `align = 4`, `a = 13`. -/
theorem claim_align_offset_law_witness :
    (from_usize 13).val < 2 ^ 4 ∧ (2 : Nat) < 4 ∧
    Addr.align_offset (from_usize 13) (2 ^ 2)
      = (from_usize 13).as_usize - (Addr.align_down 4 (from_usize 13) (2 ^ 2)).as_usize ∧
    (Addr.is_aligned (from_usize 13) (2 ^ 2) = true
      ↔ Addr.align_offset (from_usize 13) (2 ^ 2) = 0) := by
  have h := claim_align_offset_law 4 2 (from_usize 13) (by decide) (by decide)
  exact ⟨by decide, by decide, h.1, h.2⟩

end MemoryAddr
